import Mathlib

/-!
# Verification of the feature-queue orchestrator core

Shallow embedding in Lean 4 of the core subsystems of the repository:

* the task-runner command validation (`server/routers/server_tasks.py`:
  `extract_commands_from_string`, `validate_command`),
* the output redaction of the agent pool supervisor
  (`server/services/agent_pool_manager.py`: `sanitize_output`, the
  per-line sanitisation step of `_stream_output`),
* the feature store and its state machine
  (`mcp_server/feature_mcp.py`: `feature_get_next`,
  `feature_mark_passing`, `feature_skip`, `feature_mark_in_progress`,
  `feature_clear_in_progress`, `feature_create`, `feature_create_bulk`,
  `_check_rate_limit`, `_log_status_change`).

Python strings are modelled as `List Char`; wall-clock instants
(`time.time()`) as rationals; the SQLite tables as Lean lists.  Fallible
steps return explicit result types.  All definitions are executable.
-/

/-! ## Python text primitives -/

/-- The whitespace set of Python `str.strip` / regex `\s` restricted to
ASCII: space, tab, newline, carriage return, vertical tab, form feed. -/
def isPySpace (c : Char) : Bool :=
  c == ' ' || c == '\t' || c == '\n' || c == '\r' ||
    c == Char.ofNat 11 || c == Char.ofNat 12

/-- Python `str.strip()`: remove leading and trailing whitespace. -/
def pyStrip (s : List Char) : List Char :=
  ((s.dropWhile isPySpace).reverse.dropWhile isPySpace).reverse

/-- Python `str.rstrip()`: remove trailing whitespace. -/
def pyRstrip (s : List Char) : List Char :=
  (s.reverse.dropWhile isPySpace).reverse

/-- Python `s[-n:]`: the last `n` characters of `s` (all of `s` when it is
shorter). -/
def takeLast (n : Nat) (l : List Char) : List Char :=
  l.drop (l.length - n)

/-- Python `os.path.basename`: the part of the string after the final
slash. -/
def basename (s : List Char) : List Char :=
  (s.reverse.takeWhile (fun c => !(c == '/'))).reverse

/-- Python `pat in s`: substring test. -/
def containsSub (pat : List Char) : List Char → Bool
  | [] => pat.isEmpty
  | c :: t => pat.isPrefixOf (c :: t) || containsSub pat t

/-! ## Task runner: shell-word tokenisation (`shlex.split`, POSIX mode)

`extract_commands_from_string` tokenises each command segment with
`shlex.split`, which raises `ValueError` on an unterminated quote or a
trailing escape; that is modelled by returning `none`. -/

/-- Lexer states of POSIX `shlex`: outside quotes, after a backslash
outside quotes, inside single quotes, inside double quotes, and after a
backslash inside double quotes. -/
inductive LexState
  | out
  | esc
  | sq
  | dq
  | dqesc
deriving DecidableEq

/-- The `shlex` state machine.  `hasTok` records whether a token has been
started (so that empty quoted strings still yield a token), `tok` is the
current token in reverse, `acc` the finished tokens. -/
def shlexGo : List Char → LexState → Bool → List Char → List (List Char) →
    Option (List (List Char))
  | [], .out, hasTok, tok, acc =>
    some (acc ++ if hasTok then [tok.reverse] else [])
  | [], _, _, _, _ => none
  | c :: cs, .out, hasTok, tok, acc =>
    if isPySpace c then
      if hasTok then shlexGo cs .out false [] (acc ++ [tok.reverse])
      else shlexGo cs .out false [] acc
    else if c == (Char.ofNat 39) then shlexGo cs .sq true tok acc
    else if c == '"' then shlexGo cs .dq true tok acc
    else if c == '\\' then shlexGo cs .esc true tok acc
    else shlexGo cs .out true (c :: tok) acc
  | c :: cs, .esc, _, tok, acc => shlexGo cs .out true (c :: tok) acc
  | c :: cs, .sq, hasTok, tok, acc =>
    if c == (Char.ofNat 39) then shlexGo cs .out hasTok tok acc
    else shlexGo cs .sq hasTok (c :: tok) acc
  | c :: cs, .dq, hasTok, tok, acc =>
    if c == '"' then shlexGo cs .out hasTok tok acc
    else if c == '\\' then shlexGo cs .dqesc hasTok tok acc
    else shlexGo cs .dq hasTok (c :: tok) acc
  | c :: cs, .dqesc, _, tok, acc =>
    if c == '"' || c == '\\' then shlexGo cs .dq true (c :: tok) acc
    else shlexGo cs .dq true (c :: '\\' :: tok) acc

/-- Python `shlex.split` (POSIX, whitespace split): `none` models a raised
`ValueError`. -/
def shlexSplit (s : List Char) : Option (List (List Char)) :=
  shlexGo s .out false [] []

/-! ## Task runner: segment splitting

`re.split(r'\s*(?:&&|\|\||\||;)\s*', command_string)`: split on the
separators `&&`, `||`, `|`, `;`, each with surrounding whitespace
absorbed into the match.  The whitespace set `\s` is disjoint from the
separator characters, so the greedy `\s*` runs are simply the maximal
whitespace runs, and the leftmost match is found by scanning start
positions left to right. -/

/-- Length of the leading whitespace run. -/
def wsCount : List Char → Nat
  | [] => 0
  | c :: cs => if isPySpace c then wsCount cs + 1 else 0

/-- Length of the separator alternation `&&|\|\||\||;` when it matches at
the head of the string (alternatives tried in pattern order). -/
def sepLen : List Char → Option Nat
  | '&' :: '&' :: _ => some 2
  | '|' :: '|' :: _ => some 2
  | '|' :: _ => some 1
  | ';' :: _ => some 1
  | _ => none

/-- Length of a match of `\s*(?:&&|\|\||\||;)\s*` anchored at the head of
the string, when there is one. -/
def sepMatchLen (s : List Char) : Option Nat :=
  let w1 := wsCount s
  match sepLen (s.drop w1) with
  | none => none
  | some l => some (w1 + l + wsCount (s.drop (w1 + l)))

/-- Leftmost match of the separator pattern: absolute start position and
match length. -/
def findSepGo : List Char → Nat → Option (Nat × Nat)
  | [], _ => none
  | s@(_ :: rest), j =>
    match sepMatchLen s with
    | some len => some (j, len)
    | none => findSepGo rest (j + 1)

/-- Fuelled splitting loop; every match has length at least 1, so fuel
`s.length + 1` always suffices. -/
def splitSegsF : Nat → List Char → List (List Char)
  | 0, s => [s]
  | fuel + 1, s =>
    match findSepGo s 0 with
    | none => [s]
    | some (j, len) => s.take j :: splitSegsF fuel (s.drop (j + len))

/-- `re.split(r'\s*(?:&&|\|\||\||;)\s*', s)`. -/
def splitSegments (s : List Char) : List (List Char) :=
  splitSegsF (s.length + 1) s

/-! ## Task runner: command extraction and validation -/

/-- `ALLOWED_TASK_COMMANDS` from `server/routers/server_tasks.py`. -/
def ALLOWED_TASK_COMMANDS : List (List Char) :=
  ["git".data, "npm".data, "npx".data, "pnpm".data, "node".data,
   "python".data, "python3".data, "pip".data, "pip3".data, "ruff".data,
   "mypy".data, "pytest".data, "ls".data, "cat".data, "head".data,
   "tail".data, "wc".data, "grep".data, "find".data, "pwd".data,
   "echo".data]

/-- Outcome of processing one segment inside
`extract_commands_from_string`: skipped (blank, `cd `, or no tokens),
tokenisation failure (`ValueError` → `return []`), or a produced command
name. -/
inductive SegRes
  | skip
  | fail
  | cmd (c : List Char)
deriving DecidableEq

/-- One iteration of the segment loop of `extract_commands_from_string`:
strip the segment, skip it when blank or starting with `cd `, tokenise it
with `shlex.split`, and take the basename of the first token. -/
def segRes (seg : List Char) : SegRes :=
  let t := pyStrip seg
  if t = [] then .skip
  else if "cd ".data.isPrefixOf t then .skip
  else
    match shlexSplit t with
    | none => .fail
    | some [] => .skip
    | some (tok :: _) => .cmd (basename tok)

/-- The segment loop: a tokenisation failure anywhere makes the whole
extraction return the empty list. -/
def extractGo : List (List Char) → Option (List (List Char))
  | [] => some []
  | seg :: rest =>
    match segRes seg with
    | .skip => extractGo rest
    | .fail => none
    | .cmd c => (extractGo rest).map (fun cs => c :: cs)

/-- `extract_commands_from_string`: base command names of the segments,
`[]` on any tokenisation failure. -/
def extract_commands_from_string (s : List Char) : List (List Char) :=
  (extractGo (splitSegments s)).getD []

/-- The command name a segment contributes, if any. -/
def segCmd (seg : List Char) : Option (List Char) :=
  match segRes seg with
  | .cmd c => some c
  | _ => none

/-- Result of `validate_command`, one constructor per `(False, message)`
pair of the source: `emptyCommand` is `(False, "Empty command")`,
`couldNotParse` is `(False, "Could not parse command")`, `notAllowed c`
is `(False, "Command <c> is not allowed")`, and `valid` is
`(True, "")`. -/
inductive VResult
  | valid
  | emptyCommand
  | couldNotParse
  | notAllowed (cmd : List Char)
deriving DecidableEq

/-- First extracted command that is not in the allow-list, if any. -/
def firstDisallowed : List (List Char) → Option (List Char)
  | [] => none
  | c :: cs =>
    if c ∈ ALLOWED_TASK_COMMANDS then firstDisallowed cs else some c

/-- `validate_command` from `server/routers/server_tasks.py`. -/
def validate_command (s : List Char) : VResult :=
  if pyStrip s = [] then .emptyCommand
  else
    let cmds := extract_commands_from_string s
    if cmds = [] then .couldNotParse
    else
      match firstDisallowed cmds with
      | some c => .notAllowed c
      | none => .valid


/-! ## Agent pool: secret redaction (`sanitize_output`)

The twelve `SENSITIVE_PATTERNS` regexes all have the shape
"case-insensitive literal and single-character classes, an optional
`[_-]`, then a final greedy character class with a minimum repeat count"
(for example `ANTHROPIC_API_KEY=[^\s]+` or `sk-[a-zA-Z0-9]{20,}`).
They are embedded as that shape: a list of items followed by a greedy
tail class.  `re.sub` replaces each leftmost non-overlapping match with
the literal replacement. -/

/-- ASCII lower-casing, for `re.IGNORECASE`. -/
def lowerC (c : Char) : Char :=
  if 'A' ≤ c ∧ c ≤ 'Z' then Char.ofNat (c.toNat + 32) else c

/-- Case-insensitive character comparison. -/
def ciEq (a b : Char) : Bool := lowerC a == lowerC b

/-- Strip a case-insensitive literal from the head of the string. -/
def stripCI : List Char → List Char → Option (List Char)
  | [], s => some s
  | _ :: _, [] => none
  | p :: ps, c :: cs => if ciEq p c then stripCI ps cs else none

/-- Non-tail regex items: a case-insensitive literal, a one-character
class, or an optional (greedy) one-character class. -/
inductive RItem
  | lit (l : List Char)
  | one (p : Char → Bool)
  | optc (p : Char → Bool)

/-- A sensitive-data pattern: items followed by a greedy tail class
`p{min,}` that ends the pattern. -/
structure RPat where
  items : List RItem
  tailP : Char → Bool
  tailMin : Nat

/-- Match the items then the greedy tail at the head of the string,
returning the remainder after the match.  The optional item backtracks:
the consuming alternative is tried first, as Python's engine does. -/
def matchItems (tp : Char → Bool) (tmin : Nat) :
    List RItem → List Char → Option (List Char)
  | [], s =>
    if tmin ≤ (s.takeWhile tp).length then some (s.dropWhile tp) else none
  | .lit l :: rest, s =>
    match stripCI l s with
    | some s' => matchItems tp tmin rest s'
    | none => none
  | .one _ :: _, [] => none
  | .one p :: rest, c :: s =>
    if p c then matchItems tp tmin rest s else none
  | .optc _ :: rest, [] => matchItems tp tmin rest []
  | .optc p :: rest, c :: s =>
    if p c then
      match matchItems tp tmin rest s with
      | some r => some r
      | none => matchItems tp tmin rest (c :: s)
    else matchItems tp tmin rest (c :: s)

/-- Match the pattern at the head of the string. -/
def matchPat (pat : RPat) (s : List Char) : Option (List Char) :=
  matchItems pat.tailP pat.tailMin pat.items s

/-- Fuelled `re.sub(pat, repl, s)` loop: at each position, replace a match
and continue after it, otherwise copy one character.  Every pattern here
matches at least one character, so fuel `s.length + 1` suffices. -/
def reSubF (pat : RPat) (repl : List Char) : Nat → List Char → List Char
  | 0, s => s
  | fuel + 1, s =>
    match matchPat pat s with
    | some rest =>
      if rest.length < s.length then repl ++ reSubF pat repl fuel rest
      else repl ++ s
    | none =>
      match s with
      | [] => []
      | c :: s' => c :: reSubF pat repl fuel s'

/-- `re.sub(pat, repl, s, flags=re.IGNORECASE)`. -/
def reSub (pat : RPat) (repl s : List Char) : List Char :=
  reSubF pat repl (s.length + 1) s

/-- `[^\s]` (also used for `\S`). -/
def nonSpace (c : Char) : Bool := !(isPySpace c)

/-- `[a-zA-Z0-9]`. -/
def alphaNum (c : Char) : Bool := c.isAlpha || c.isDigit

/-- `[_-]`. -/
def undDash (c : Char) : Bool := c == '_' || c == '-'

/-- `[=:]`. -/
def eqColon (c : Char) : Bool := c == '=' || c == ':'

/-- `SENSITIVE_PATTERNS` from `server/services/agent_pool_manager.py`, in
source order. -/
def SENSITIVE_PATTERNS : List RPat :=
  [⟨[.lit "sk-".data], alphaNum, 20⟩,
   ⟨[.lit "ANTHROPIC_API_KEY=".data], nonSpace, 1⟩,
   ⟨[.lit "api".data, .optc undDash, .lit "key".data, .one eqColon], nonSpace, 1⟩,
   ⟨[.lit "token".data, .one eqColon], nonSpace, 1⟩,
   ⟨[.lit "password".data, .one eqColon], nonSpace, 1⟩,
   ⟨[.lit "secret".data, .one eqColon], nonSpace, 1⟩,
   ⟨[.lit "ghp_".data], alphaNum, 36⟩,
   ⟨[.lit "gho_".data], alphaNum, 36⟩,
   ⟨[.lit "ghs_".data], alphaNum, 36⟩,
   ⟨[.lit "ghr_".data], alphaNum, 36⟩,
   ⟨[.lit "aws".data, .optc undDash, .lit "access".data, .optc undDash,
     .lit "key".data, .one eqColon], nonSpace, 1⟩,
   ⟨[.lit "aws".data, .optc undDash, .lit "secret".data, .one eqColon], nonSpace, 1⟩]

/-- `sanitize_output`: apply each sensitive pattern in turn, replacing
every match with the literal `[REDACTED]`. -/
def sanitize_output (line : List Char) : List Char :=
  SENSITIVE_PATTERNS.foldl (fun l pat => reSub pat "[REDACTED]".data l) line

/-- The per-line sanitisation step of `_stream_output`: the raw line is
decoded, right-stripped, sanitised, and the sanitised form is what is
broadcast to the registered output callbacks. -/
def streamedLine (raw : List Char) : List Char :=
  sanitize_output (pyRstrip raw)


/-! ## Feature store: data model (`api/database.py`)

`Feature` and `StatusChangeLog` rows; the `features` and
`status_change_log` tables are lists.  `id` is the unique primary key
assigned by autoincrement. -/

structure Feature where
  id : Nat
  priority : Int
  category : String
  name : String
  description : String
  steps : List String
  passes : Bool
  in_progress : Bool
  verification_command : Option String
  verification_evidence : Option (List Char)
  marked_passing_at : Option String
deriving DecidableEq

structure LogRow where
  feature_id : Nat
  feature_name : String
  old_status : String
  new_status : String
  evidence : Option (List Char)
  verification_output : Option (List Char)
  timestamp : String
deriving DecidableEq

/-- The per-project database: the two tables of `features.db`. -/
structure DB where
  features : List Feature
  logs : List LogRow
deriving DecidableEq

/-- Process state of the MCP server: the database plus the process-wide
rate-limiter window `_mark_passing_timestamps` (wall-clock instants). -/
structure SysState where
  db : DB
  stamps : List ℚ
deriving DecidableEq

/-- `session.query(Feature).filter(Feature.id == fid).first()`. -/
def findFeature (fs : List Feature) (fid : Nat) : Option Feature :=
  fs.find? (fun f => f.id == fid)

/-- Update the (unique, primary-key) feature with the given id; the first
matching row is replaced, as the ORM mutates the single fetched object. -/
def updateFeature : List Feature → Nat → (Feature → Feature) → List Feature
  | [], _, _ => []
  | f :: fs, fid, g =>
    if f.id == fid then g f :: fs else f :: updateFeature fs fid g

/-- `SELECT priority ... ORDER BY priority DESC LIMIT 1`: the maximum
priority, `none` when the table is empty. -/
def maxPriority : List Feature → Option Int
  | [] => none
  | f :: fs =>
    some (match maxPriority fs with
          | none => f.priority
          | some m => max f.priority m)

/-- Strict ordering used by `ORDER BY priority ASC, id ASC`. -/
def betterF (a b : Feature) : Bool :=
  a.priority < b.priority || (a.priority == b.priority && a.id < b.id)

/-- First element of the list in `(priority ASC, id ASC)` order. -/
def minNP : List Feature → Option Feature
  | [] => none
  | f :: fs =>
    match minNP fs with
    | none => some f
    | some g => if betterF f g then some f else some g

/-- `feature_get_next`: the non-passing feature that is minimal under
`(priority ASC, id ASC)`, or `none` when all features pass. -/
def feature_get_next (fs : List Feature) : Option Feature :=
  minNP (fs.filter (fun f => !f.passes))

/-- The non-strict `(priority, id)` lexicographic order. -/
def lexLe (a b : Feature) : Prop :=
  a.priority < b.priority ∨ (a.priority = b.priority ∧ a.id ≤ b.id)

/-! ## Feature store: rate limiter (`_check_rate_limit`) -/

/-- Minimum of a list of rationals (Python `min`). -/
def minQ : List ℚ → Option ℚ
  | [] => none
  | x :: xs =>
    some (match minQ xs with
          | none => x
          | some m => min x m)

/-- `_WINDOW_SECONDS`. -/
def WINDOW_SECONDS : ℚ := 300

/-- `_MAX_MARKS_PER_WINDOW`. -/
def MAX_MARKS_PER_WINDOW : Nat := 3

/-- The in-place pruning `[t for t in _mark_passing_timestamps if
now - t < _WINDOW_SECONDS]`. -/
def keptStamps (now : ℚ) (stamps : List ℚ) : List ℚ :=
  stamps.filter (fun t => decide (now - t < WINDOW_SECONDS))

/-! ## Feature store: `feature_mark_passing` -/

/-- Result of `feature_mark_passing`, one constructor per returned JSON
shape of the source (each non-`ok` constructor is an `{"error": ...}`
response; `rateLimited` carries the integer wait time printed in its
message, `verifFailed` the exit code and the last-500-character stream
tails included in the response). -/
inductive MPResult
  | rateLimited (wait : Int)
  | evidenceTooShort
  | notFound (fid : Nat)
  | notInProgress (fid : Nat)
  | verifFailed (code : Int) (stdoutTail stderrTail : List Char)
  | verifTimeout
  | ok (f : Feature)
deriving DecidableEq

/-- Whether a `feature_mark_passing` call committed. -/
def isOk : MPResult → Bool
  | .ok _ => true
  | _ => false

/-- Behaviour of the verification subprocess
(`subprocess.run(..., timeout=120)`), supplied by the environment: it ran
with an exit code and captured streams, or it timed out. -/
inductive VerifOutcome
  | ran (returncode : Int) (stdout stderr : List Char)
  | timeout
deriving DecidableEq

/-- `_log_status_change`: append an audit row. -/
def logStatusChange (logs : List LogRow) (f : Feature)
    (oldStatus newStatus : String) (evidence verificationOutput : Option (List Char))
    (ts : String) : List LogRow :=
  logs ++ [⟨f.id, f.name, oldStatus, newStatus, evidence, verificationOutput, ts⟩]

/-- Layers 6 and 7 of `feature_mark_passing`: apply the change and append
the audit row. -/
def mpCommit (ts : String) (fid : Nat) (evidence : List Char) (f : Feature)
    (vout : Option (List Char)) (db : DB) : MPResult × DB :=
  let f' := { f with
    passes := true,
    in_progress := false,
    verification_evidence := some (pyStrip evidence),
    marked_passing_at := some ts }
  (.ok f',
   ⟨updateFeature db.features fid (fun g =>
      { g with
        passes := true,
        in_progress := false,
        verification_evidence := some (pyStrip evidence),
        marked_passing_at := some ts }),
    logStatusChange db.logs f "in_progress" "passing"
      (some (pyStrip evidence)) vout ts⟩)

/-- Layers 2–7 of `feature_mark_passing` (everything after the rate
limiter): evidence check, existence, state precondition, verification
command, commit, audit. -/
def mpAfterRate (ts : String) (fid : Nat) (evidence : List Char)
    (env : VerifOutcome) (db : DB) : MPResult × DB :=
  if (pyStrip evidence).length < 50 then (.evidenceTooShort, db)
  else
    match findFeature db.features fid with
    | none => (.notFound fid, db)
    | some f =>
      if f.in_progress = false then (.notInProgress fid, db)
      else
        match f.verification_command with
        | none => mpCommit ts fid evidence f none db
        | some cmd =>
          if cmd = "" then mpCommit ts fid evidence f none db
          else
            match env with
            | .timeout => (.verifTimeout, db)
            | .ran code out err =>
              if code = 0 then
                mpCommit ts fid evidence f
                  (some (takeLast 1000 out ++ takeLast 1000 err)) db
              else (.verifFailed code (takeLast 500 out) (takeLast 500 err), db)

/-- `feature_mark_passing(feature_id, evidence)` at wall-clock time `now`
(also used for the recorded timestamp), with `ts` the ISO timestamp
string written by `datetime.utcnow()`: the rate-limit gate, then
`mpAfterRate`, and the rate-limit timestamp recorded only after a
successful commit. -/
def feature_mark_passing (now : ℚ) (ts : String) (fid : Nat)
    (evidence : List Char) (env : VerifOutcome) (st : SysState) :
    MPResult × SysState :=
  let kept := keptStamps now st.stamps
  if MAX_MARKS_PER_WINDOW ≤ kept.length then
    (.rateLimited (Int.floor (WINDOW_SECONDS - (now - (minQ kept).getD 0))),
     ⟨st.db, kept⟩)
  else
    let p := mpAfterRate ts fid evidence env st.db
    (p.1, ⟨p.2, kept ++ if isOk p.1 then [now] else []⟩)

/-! ## Feature store: the other operations -/

inductive MIPResult
  | notFound (fid : Nat)
  | alreadyPassing (fid : Nat)
  | alreadyInProgress (fid : Nat)
  | ok (f : Feature)
deriving DecidableEq

/-- `feature_mark_in_progress`. -/
def feature_mark_in_progress (fid : Nat) (db : DB) : MIPResult × DB :=
  match findFeature db.features fid with
  | none => (.notFound fid, db)
  | some f =>
    if f.passes then (.alreadyPassing fid, db)
    else if f.in_progress then (.alreadyInProgress fid, db)
    else
      (.ok { f with in_progress := true },
       ⟨updateFeature db.features fid (fun g => { g with in_progress := true }),
        db.logs⟩)

inductive CIPResult
  | notFound (fid : Nat)
  | ok (f : Feature)
deriving DecidableEq

/-- `feature_clear_in_progress`: unconditionally clear the flag on an
existing feature.  The source writes no `StatusChangeLog` row here. -/
def feature_clear_in_progress (fid : Nat) (db : DB) : CIPResult × DB :=
  match findFeature db.features fid with
  | none => (.notFound fid, db)
  | some f =>
    (.ok { f with in_progress := false },
     ⟨updateFeature db.features fid (fun g => { g with in_progress := false }),
      db.logs⟩)

inductive SkipResult
  | notFound (fid : Nat)
  | cannotSkipPassing
  | ok (fid : Nat) (name : String) (old_priority new_priority : Int)
deriving DecidableEq

/-- `feature_skip`: move the feature to the end of the priority queue and
clear its `in_progress` flag. -/
def feature_skip (fid : Nat) (db : DB) : SkipResult × DB :=
  match findFeature db.features fid with
  | none => (.notFound fid, db)
  | some f =>
    if f.passes then (.cannotSkipPassing, db)
    else
      let newP := (maxPriority db.features).elim 1 (· + 1)
      (.ok f.id f.name f.priority newP,
       ⟨updateFeature db.features fid
          (fun g => { g with priority := newP, in_progress := false }),
        db.logs⟩)

/-- Input record of `feature_create` / `feature_create_bulk` (the four
required fields, already validated by the schema layer). -/
structure CreateItem where
  category : String
  name : String
  description : String
  steps : List String
deriving DecidableEq

/-- Autoincrement: the next primary key. -/
def nextId (fs : List Feature) : Nat :=
  (fs.map (fun f => f.id)).foldl max 0 + 1

/-- A freshly inserted row: `passes=False`, `in_progress` defaulted to
`False`, verification fields `NULL`. -/
def mkFeature (idv : Nat) (pr : Int) (c : CreateItem) : Feature :=
  { id := idv,
    priority := pr,
    category := c.category,
    name := c.name,
    description := c.description,
    steps := c.steps,
    passes := false,
    in_progress := false,
    verification_command := none,
    verification_evidence := none,
    marked_passing_at := none }

/-- `feature_create`: insert one feature at priority `max + 1` (1 when the
table is empty), under the priority lock. -/
def feature_create (c : CreateItem) (db : DB) : Feature × DB :=
  let pr := (maxPriority db.features).elim 1 (· + 1)
  let f := mkFeature (nextId db.features) pr c
  (f, ⟨db.features ++ [f], db.logs⟩)

/-- `feature_create_bulk`: insert the features with sequential priorities
`start, start+1, ...` under the priority lock. -/
def feature_create_bulk (cs : List CreateItem) (db : DB) : Nat × DB :=
  let start := (maxPriority db.features).elim 1 (· + 1)
  let news := cs.enum.map
    (fun p => mkFeature (nextId db.features + p.1) (start + (p.1 : Int)) p.2)
  (cs.length, ⟨db.features ++ news, db.logs⟩)

/-! ## Feature store: operation alphabet and call traces -/

/-- One feature-store operation, for stating store-wide invariants. -/
inductive FOp
  | create (c : CreateItem)
  | createBulk (cs : List CreateItem)
  | markInProgress (fid : Nat)
  | clearInProgress (fid : Nat)
  | skip (fid : Nat)
  | markPassing (now : ℚ) (ts : String) (fid : Nat) (ev : List Char)
      (env : VerifOutcome)

/-- Apply one operation to the process state. -/
def applyOp : FOp → SysState → SysState
  | .create c, st => ⟨(feature_create c st.db).2, st.stamps⟩
  | .createBulk cs, st => ⟨(feature_create_bulk cs st.db).2, st.stamps⟩
  | .markInProgress fid, st => ⟨(feature_mark_in_progress fid st.db).2, st.stamps⟩
  | .clearInProgress fid, st => ⟨(feature_clear_in_progress fid st.db).2, st.stamps⟩
  | .skip fid, st => ⟨(feature_skip fid st.db).2, st.stamps⟩
  | .markPassing now ts fid ev env, st =>
    (feature_mark_passing now ts fid ev env st).2

/-- Invariant I1 of the spec: `passes ⇒ ¬in_progress`. -/
def PassInv (db : DB) : Prop :=
  ∀ f ∈ db.features, f.passes = true → f.in_progress = false

/-- One `feature_mark_passing` call of a trace: its wall-clock time,
timestamp string, arguments, and the verification environment's
behaviour. -/
structure MPCall where
  now : ℚ
  ts : String
  fid : Nat
  evidence : List Char
  env : VerifOutcome

/-- Run one call of a trace. -/
def runCall (c : MPCall) (st : SysState) : MPResult × SysState :=
  feature_mark_passing c.now c.ts c.fid c.evidence c.env st

/-- Wall-clock times of the successful calls of a trace. -/
def succTimes : List MPCall → SysState → List ℚ
  | [], _ => []
  | c :: cs, st =>
    let p := runCall c st
    (if isOk p.1 then [c.now] else []) ++ succTimes cs p.2

/-- Number of elements of the list lying in the window `[t, t + 300)`. -/
def windowCount (t : ℚ) (l : List ℚ) : Nat :=
  l.countP (fun s => decide (t ≤ s ∧ s < t + WINDOW_SECONDS))

/-- Number of elements `≥ t`. -/
def geCount (t : ℚ) (l : List ℚ) : Nat :=
  l.countP (fun s => decide (t ≤ s))

/-- UTF-8 byte length of a character. -/
def charBytes (c : Char) : Nat :=
  if c.toNat < 128 then 1
  else if c.toNat < 2048 then 2
  else if c.toNat < 65536 then 3
  else 4

/-- UTF-8 byte length of a string. -/
def utf8Len (l : List Char) : Nat :=
  (l.map charBytes).sum

/-! ## Concrete fixtures used by the scenario theorems -/

/-- A pending feature fixture. -/
def fixF (idv : Nat) (pr : Int) (nm : String) : Feature :=
  { id := idv,
    priority := pr,
    category := "C",
    name := nm,
    description := "D",
    steps := ["s"],
    passes := false,
    in_progress := false,
    verification_command := none,
    verification_evidence := none,
    marked_passing_at := none }

/-- Three pending features at priorities 1, 2, 3 (scenario S6). -/
def db3 : DB :=
  ⟨[fixF 1 1 "F1", fixF 2 2 "F2", fixF 3 3 "F3"], []⟩

/-- Fifty characters of evidence. -/
def ev50 : List Char := List.replicate 50 'x'

/-- One feature currently in progress (for the clear/mark transitions). -/
def dbIP : DB :=
  ⟨[{ fixF 1 1 "F1" with in_progress := true }], []⟩

/-- One in-progress feature that carries a verification command. -/
def dbVC : DB :=
  ⟨[{ fixF 1 1 "F1" with
      in_progress := true,
      verification_command := some "pytest" }], []⟩

/-- 501 two-byte characters: 1002 UTF-8 bytes of verification stdout. -/
def out501 : List Char := List.replicate 501 'é'



/-! ## Lemmas: the `(priority ASC, id ASC)` minimum -/

lemma lexLe_refl (a : Feature) : lexLe a a := Or.inr ⟨rfl, le_refl _⟩

lemma lexLe_trans {a b c : Feature} (h1 : lexLe a b) (h2 : lexLe b c) :
    lexLe a c := by
  rcases h1 with h1 | ⟨h1, h1'⟩ <;> rcases h2 with h2 | ⟨h2, h2'⟩
  · exact Or.inl (lt_trans h1 h2)
  · exact Or.inl (h2 ▸ h1)
  · exact Or.inl (h1 ▸ h2)
  · exact Or.inr ⟨h1.trans h2, h1'.trans h2'⟩

lemma betterF_true {a b : Feature} (h : betterF a b = true) : lexLe a b := by
  simp only [betterF, Bool.or_eq_true, Bool.and_eq_true, decide_eq_true_eq,
    beq_iff_eq] at h
  rcases h with h | ⟨h1, h2⟩
  · exact Or.inl h
  · exact Or.inr ⟨h1, le_of_lt h2⟩

lemma betterF_false {a b : Feature} (h : betterF a b = false) : lexLe b a := by
  simp only [betterF, Bool.or_eq_false_iff, Bool.and_eq_false_iff,
    decide_eq_false_iff_not, beq_eq_false_iff_ne, ne_eq] at h
  obtain ⟨h1, h2⟩ := h
  rcases lt_trichotomy b.priority a.priority with hp | hp | hp
  · exact Or.inl hp
  · refine Or.inr ⟨hp, ?_⟩
    rcases h2 with h3 | h3
    · exact absurd hp.symm h3
    · exact le_of_not_lt h3
  · exact absurd hp h1

lemma minNP_eq_none {l : List Feature} : minNP l = none ↔ l = [] := by
  cases l with
  | nil => simp [minNP]
  | cons f fs =>
    simp only [List.cons_ne_nil, iff_false]
    intro h
    rw [minNP] at h
    split at h
    · exact Option.noConfusion h
    · split at h <;> exact Option.noConfusion h

lemma minNP_spec {l : List Feature} {g : Feature} (h : minNP l = some g) :
    g ∈ l ∧ ∀ x ∈ l, lexLe g x := by
  induction l generalizing g with
  | nil => simp [minNP] at h
  | cons f fs ih =>
    rw [minNP] at h
    split at h
    · rename_i hm
      obtain rfl : f = g := by simpa using h
      have hnil : fs = [] := minNP_eq_none.mp hm
      subst hnil
      refine ⟨by simp, ?_⟩
      intro x hx
      rcases List.mem_cons.mp hx with rfl | hx
      · exact lexLe_refl _
      · simp at hx
    · rename_i m hm
      obtain ⟨hmem, hle⟩ := ih hm
      split at h
      · rename_i hb
        obtain rfl : f = g := by simpa using h
        refine ⟨List.mem_cons_self _ _, ?_⟩
        intro x hx
        rcases List.mem_cons.mp hx with rfl | hx
        · exact lexLe_refl _
        · exact lexLe_trans (betterF_true hb) (hle x hx)
      · rename_i hb
        obtain rfl : m = g := by simpa using h
        refine ⟨List.mem_cons_of_mem _ hmem, ?_⟩
        intro x hx
        rcases List.mem_cons.mp hx with rfl | hx
        · exact betterF_false (Bool.not_eq_true _ ▸ hb)
        · exact hle x hx

lemma feature_get_next_spec {fs : List Feature} {g : Feature}
    (h : feature_get_next fs = some g) :
    g ∈ fs ∧ g.passes = false ∧ ∀ x ∈ fs, x.passes = false → lexLe g x := by
  obtain ⟨hmem, hle⟩ := minNP_spec h
  obtain ⟨hg, hgp⟩ := List.mem_filter.mp hmem
  refine ⟨hg, by simpa using hgp, ?_⟩
  intro x hx hxp
  exact hle x (List.mem_filter.mpr ⟨hx, by simp [hxp]⟩)

lemma feature_get_next_isSome {fs : List Feature} {f : Feature}
    (hf : f ∈ fs) (hp : f.passes = false) :
    ∃ g, feature_get_next fs = some g := by
  have hmem : f ∈ fs.filter (fun x => !x.passes) :=
    List.mem_filter.mpr ⟨hf, by simp [hp]⟩
  unfold feature_get_next
  cases hm : minNP (fs.filter (fun x => !x.passes)) with
  | none =>
    rw [minNP_eq_none.mp hm] at hmem
    exact absurd hmem (List.not_mem_nil f)
  | some g => exact ⟨g, rfl⟩

/-! ## Lemmas: find and update on the features table -/

lemma findFeature_mem {fs : List Feature} {fid : Nat} {f : Feature}
    (h : findFeature fs fid = some f) : f ∈ fs :=
  List.mem_of_find?_eq_some h

lemma findFeature_id {fs : List Feature} {fid : Nat} {f : Feature}
    (h : findFeature fs fid = some f) : f.id = fid := by
  have := List.find?_some h
  simpa using this

lemma updateFeature_findFeature {fs : List Feature} {fid : Nat} {f : Feature}
    (g : Feature → Feature) (h : findFeature fs fid = some f)
    (hid : ∀ x, (g x).id = x.id) :
    findFeature (updateFeature fs fid g) fid = some (g f) := by
  induction fs with
  | nil => simp [findFeature] at h
  | cons a fs ih =>
    by_cases ha : (a.id == fid) = true
    · have hfind : findFeature (a :: fs) fid = some a := by
        simp only [findFeature, List.find?, ha]
      rw [hfind] at h
      obtain rfl : a = f := by simpa using h
      rw [updateFeature, if_pos ha]
      have hga : ((g a).id == fid) = true := by
        have hga' := hid a
        simp only [beq_iff_eq] at ha ⊢
        rw [hga', ha]
      simp only [findFeature, List.find?, hga]
    · have ha' : (a.id == fid) = false := by simpa using ha
      have hstep : findFeature (a :: fs) fid = findFeature fs fid := by
        simp only [findFeature, List.find?, ha']
      rw [hstep] at h
      rw [updateFeature, if_neg ha]
      have hstep2 : findFeature (a :: updateFeature fs fid g) fid =
          findFeature (updateFeature fs fid g) fid := by
        simp only [findFeature, List.find?, ha']
      rw [hstep2]
      exact ih h

lemma updateFeature_mem {fs : List Feature} {fid : Nat} {g : Feature → Feature}
    {x : Feature} (h : x ∈ updateFeature fs fid g) :
    x ∈ fs ∨ ∃ y, findFeature fs fid = some y ∧ x = g y := by
  induction fs with
  | nil => simp [updateFeature] at h
  | cons a fs ih =>
    by_cases ha : (a.id == fid) = true
    · rw [updateFeature, if_pos ha] at h
      rcases List.mem_cons.mp h with rfl | hx
      · exact Or.inr ⟨a, by simp only [findFeature, List.find?, ha], rfl⟩
      · exact Or.inl (List.mem_cons_of_mem _ hx)
    · rw [updateFeature, if_neg ha] at h
      rcases List.mem_cons.mp h with rfl | hx
      · exact Or.inl (List.mem_cons_self _ _)
      · rcases ih hx with hl | ⟨y, hy, hxy⟩
        · exact Or.inl (List.mem_cons_of_mem _ hl)
        · refine Or.inr ⟨y, ?_, hxy⟩
          have ha' : (a.id == fid) = false := by simpa using ha
          simp only [findFeature, List.find?, ha']
          exact hy

lemma updateFeature_mem_of_mem {fs : List Feature} {fid : Nat}
    {g : Feature → Feature} {x : Feature} (hx : x ∈ fs)
    (hne : (x.id == fid) = false) : x ∈ updateFeature fs fid g := by
  induction fs with
  | nil => simp at hx
  | cons a fs ih =>
    rcases List.mem_cons.mp hx with rfl | hx
    · rw [updateFeature, if_neg (by simp_all)]
      exact List.mem_cons_self _ _
    · by_cases ha : (a.id == fid) = true
      · rw [updateFeature, if_pos ha]
        exact List.mem_cons_of_mem _ hx
      · rw [updateFeature, if_neg ha]
        exact List.mem_cons_of_mem _ (ih hx)

/-! ## Claim C2 -/

/-- Claim C2 counterexample: on a feature whose previous `in_progress`
value is `true`, `feature_clear_in_progress` appends no `StatusChangeLog`
row — the log is unchanged (here: still empty), contradicting the claim
that the transition is logged. -/
theorem clear_in_progress_no_log_counterexample :
    findFeature dbIP.features 1 =
      some { fixF 1 1 "F1" with in_progress := true } ∧
    ({ fixF 1 1 "F1" with in_progress := true } : Feature).in_progress = true ∧
    (feature_clear_in_progress 1 dbIP).1 = .ok (fixF 1 1 "F1") ∧
    (feature_clear_in_progress 1 dbIP).2.logs = dbIP.logs ∧
    dbIP.logs = [] := by decide

/-- Claim C2 (amended): `feature_clear_in_progress` on an existing feature
unconditionally sets `in_progress = false`; it never appends a
`StatusChangeLog` row, whatever the previous value of `in_progress`
was. -/
theorem clear_in_progress_amended (fid : Nat) (db : DB) (f : Feature)
    (h : findFeature db.features fid = some f) :
    (feature_clear_in_progress fid db).1 = .ok { f with in_progress := false } ∧
    (feature_clear_in_progress fid db).2.features =
      updateFeature db.features fid (fun g => { g with in_progress := false }) ∧
    (feature_clear_in_progress fid db).2.logs = db.logs ∧
    findFeature (feature_clear_in_progress fid db).2.features fid =
      some { f with in_progress := false } := by
  refine ⟨?_, ?_, ?_, ?_⟩
  · simp [feature_clear_in_progress, h]
  · simp [feature_clear_in_progress, h]
  · simp [feature_clear_in_progress, h]
  · simp only [feature_clear_in_progress, h]
    exact updateFeature_findFeature _ h (fun x => rfl)

/-- Witness for the amended C2 theorem at a concrete in-progress
feature. -/
theorem clear_in_progress_amended_witness :
    findFeature dbIP.features 1 =
      some { fixF 1 1 "F1" with in_progress := true } ∧
    (feature_clear_in_progress 1 dbIP).1 = .ok (fixF 1 1 "F1") ∧
    (feature_clear_in_progress 1 dbIP).2.logs = dbIP.logs := by
  have h := clear_in_progress_amended 1 dbIP
    { fixF 1 1 "F1" with in_progress := true } (by decide)
  exact ⟨by decide, h.1, h.2.2.1⟩

/-! ## Lemmas: shape of `feature_mark_passing` -/

lemma mpCommit_fst (ts : String) (fid : Nat) (ev : List Char) (f : Feature)
    (vout : Option (List Char)) (db : DB) :
    (mpCommit ts fid ev f vout db).1 =
      .ok { f with
        passes := true,
        in_progress := false,
        verification_evidence := some (pyStrip ev),
        marked_passing_at := some ts } := rfl

/-- A `mpAfterRate` call either rejects and leaves the database untouched,
or commits through `mpCommit` on the found feature. -/
lemma mpAfterRate_db (ts : String) (fid : Nat) (ev : List Char)
    (env : VerifOutcome) (db : DB) :
    ((mpAfterRate ts fid ev env db).2 = db ∧
      isOk (mpAfterRate ts fid ev env db).1 = false) ∨
    (∃ f vout, findFeature db.features fid = some f ∧ f.in_progress = true ∧
      mpAfterRate ts fid ev env db = mpCommit ts fid ev f vout db) := by
  unfold mpAfterRate
  split
  · exact Or.inl ⟨rfl, rfl⟩
  · split
    · exact Or.inl ⟨rfl, rfl⟩
    · rename_i f hfind
      split
      · exact Or.inl ⟨rfl, rfl⟩
      · rename_i hip
        have hip' : f.in_progress = true := by
          cases hin : f.in_progress
          · exact absurd hin hip
          · rfl
        split
        · exact Or.inr ⟨f, none, hfind, hip', rfl⟩
        · rename_i cmd hcmd
          split
          · exact Or.inr ⟨f, none, hfind, hip', rfl⟩
          · split
            · exact Or.inl ⟨rfl, rfl⟩
            · rename_i code out err
              split
              · exact Or.inr ⟨f, some (takeLast 1000 out ++ takeLast 1000 err),
                  hfind, hip', rfl⟩
              · exact Or.inl ⟨rfl, rfl⟩

/-- Unfolding of `feature_mark_passing` when the rate limit admits the
call. -/
lemma feature_mark_passing_passes_gate (now : ℚ) (ts : String) (fid : Nat)
    (ev : List Char) (env : VerifOutcome) (st : SysState)
    (hrate : ¬ MAX_MARKS_PER_WINDOW ≤ (keptStamps now st.stamps).length) :
    feature_mark_passing now ts fid ev env st =
      ((mpAfterRate ts fid ev env st.db).1,
       ⟨(mpAfterRate ts fid ev env st.db).2,
        keptStamps now st.stamps ++
          if isOk (mpAfterRate ts fid ev env st.db).1 then [now] else []⟩) := by
  simp only [feature_mark_passing, if_neg hrate]

/-! ## Claim C1 -/

/-- Claim C1: every rejected `feature_mark_passing` call — rate limit,
short evidence, missing feature, feature not in progress, failed or
timed-out verification command (all the non-`ok` results) — returns a
structured error result and leaves the database untouched: no feature
field is mutated and no `StatusChangeLog` row is written. -/
theorem mark_passing_rejection_preserves_db (now : ℚ) (ts : String)
    (fid : Nat) (ev : List Char) (env : VerifOutcome) (st : SysState)
    (herr : isOk (feature_mark_passing now ts fid ev env st).1 = false) :
    (feature_mark_passing now ts fid ev env st).2.db = st.db ∧
    (feature_mark_passing now ts fid ev env st).2.db.features = st.db.features ∧
    (feature_mark_passing now ts fid ev env st).2.db.logs = st.db.logs := by
  by_cases hrate : MAX_MARKS_PER_WINDOW ≤ (keptStamps now st.stamps).length
  · simp [feature_mark_passing, if_pos hrate]
  · rw [feature_mark_passing_passes_gate now ts fid ev env st hrate] at herr ⊢
    rcases mpAfterRate_db ts fid ev env st.db with ⟨hdb, _⟩ | ⟨f, vout, _, _, heq⟩
    · rw [hdb]
      exact ⟨rfl, rfl, rfl⟩
    · rw [heq] at herr
      rw [mpCommit_fst] at herr
      exact absurd herr (by simp [isOk])

/-- Witness for C1: a call rejected for short evidence leaves the
database unchanged. -/
theorem mark_passing_rejection_witness :
    isOk (feature_mark_passing 0 "T" 1 [] (.ran 0 [] []) ⟨dbIP, []⟩).1 = false ∧
    (feature_mark_passing 0 "T" 1 [] (.ran 0 [] []) ⟨dbIP, []⟩).2.db = dbIP :=
  ⟨by decide,
   (mark_passing_rejection_preserves_db 0 "T" 1 [] (.ran 0 [] [])
     ⟨dbIP, []⟩ (by decide)).1⟩

/-! ## Claim C5 -/

/-- Claim C5: every feature-store operation (`feature_create`,
`feature_create_bulk`, `feature_mark_in_progress`,
`feature_clear_in_progress`, `feature_skip`, `feature_mark_passing`)
preserves the invariant `passes ⇒ ¬ in_progress`. -/
theorem ops_preserve_passes_not_in_progress (op : FOp) (st : SysState)
    (hinv : PassInv st.db) : PassInv (applyOp op st).db := by
  cases op with
  | create c =>
    intro x hx hp
    simp only [applyOp, feature_create] at hx
    rcases List.mem_append.mp hx with hx | hx
    · exact hinv x hx hp
    · obtain rfl : x = mkFeature (nextId st.db.features)
        ((maxPriority st.db.features).elim 1 (· + 1)) c := by simpa using hx
      simp [mkFeature] at hp
  | createBulk cs =>
    intro x hx hp
    simp only [applyOp, feature_create_bulk] at hx
    rcases List.mem_append.mp hx with hx | hx
    · exact hinv x hx hp
    · obtain ⟨p, _, rfl⟩ := List.mem_map.mp hx
      simp [mkFeature] at hp
  | markInProgress fid =>
    intro x hx hp
    simp only [applyOp] at hx
    unfold feature_mark_in_progress at hx
    split at hx
    · exact hinv x hx hp
    · rename_i f hfind
      split at hx
      · exact hinv x hx hp
      · split at hx
        · exact hinv x hx hp
        · rename_i hpass hip
          simp only at hx
          rcases updateFeature_mem hx with hmem | ⟨y, hy, rfl⟩
          · exact hinv x hmem hp
          · obtain rfl : y = f := by
              rw [hy] at hfind
              exact (Option.some.injEq _ _ ▸ hfind).symm ▸ rfl
            simp only at hp
            exact absurd hp (by simpa using hpass)
  | clearInProgress fid =>
    intro x hx hp
    simp only [applyOp] at hx
    unfold feature_clear_in_progress at hx
    split at hx
    · exact hinv x hx hp
    · simp only at hx
      rcases updateFeature_mem hx with hmem | ⟨y, hy, rfl⟩
      · exact hinv x hmem hp
      · rfl
  | skip fid =>
    intro x hx hp
    simp only [applyOp] at hx
    unfold feature_skip at hx
    split at hx
    · exact hinv x hx hp
    · split at hx
      · exact hinv x hx hp
      · simp only at hx
        rcases updateFeature_mem hx with hmem | ⟨y, hy, rfl⟩
        · exact hinv x hmem hp
        · rfl
  | markPassing now ts fid ev env =>
    intro x hx hp
    by_cases hrate : MAX_MARKS_PER_WINDOW ≤ (keptStamps now st.stamps).length
    · simp only [applyOp, feature_mark_passing, if_pos hrate] at hx
      exact hinv x hx hp
    · rw [show applyOp (.markPassing now ts fid ev env) st =
          (feature_mark_passing now ts fid ev env st).2 from rfl,
        feature_mark_passing_passes_gate now ts fid ev env st hrate] at hx
      rcases mpAfterRate_db ts fid ev env st.db with ⟨hdb, _⟩ | ⟨f, vout, _, _, heq⟩
      · rw [hdb] at hx
        exact hinv x hx hp
      · rw [heq] at hx
        simp only [mpCommit] at hx
        rcases updateFeature_mem hx with hmem | ⟨y, hy, rfl⟩
        · exact hinv x hmem hp
        · rfl

/-- Witness for C5: marking a pending feature in progress preserves the
invariant on a concrete store. -/
theorem ops_preserve_witness :
    PassInv (⟨db3, []⟩ : SysState).db ∧
    PassInv (applyOp (.markInProgress 1) ⟨db3, []⟩).db :=
  ⟨by unfold PassInv; decide, ops_preserve_passes_not_in_progress (.markInProgress 1)
    ⟨db3, []⟩ (by unfold PassInv; decide)⟩

/-! ## Claim C6 -/

/-- Claim C6: `feature_skip` rejects a passing feature; on a pending
feature it sets that feature's priority to the maximum priority plus one
under the priority lock, clears `in_progress`, and returns the old and
new priorities.  In the S6 scenario (priorities {1,2,3}, none passing),
skipping the priority-1 feature gives it priority 4 and
`feature_get_next` then returns the feature originally at priority 2. -/
theorem feature_skip_spec :
    (∀ fid db f, findFeature db.features fid = some f → f.passes = false →
      (feature_skip fid db).1 =
        .ok f.id f.name f.priority ((maxPriority db.features).elim 1 (· + 1)) ∧
      findFeature (feature_skip fid db).2.features fid =
        some { f with
          priority := (maxPriority db.features).elim 1 (· + 1),
          in_progress := false } ∧
      (feature_skip fid db).2.logs = db.logs) ∧
    (∀ fid db f, findFeature db.features fid = some f → f.passes = true →
      feature_skip fid db = (.cannotSkipPassing, db)) ∧
    (feature_skip 1 db3).1 = .ok 1 "F1" 1 4 ∧
    findFeature (feature_skip 1 db3).2.features 1 =
      some { fixF 1 1 "F1" with priority := 4 } ∧
    feature_get_next (feature_skip 1 db3).2.features = some (fixF 2 2 "F2") := by
  refine ⟨?_, ?_, by decide, by decide, by decide⟩
  · intro fid db f hfind hp
    have hstep : feature_skip fid db =
        (.ok f.id f.name f.priority ((maxPriority db.features).elim 1 (· + 1)),
         ⟨updateFeature db.features fid (fun g =>
            { g with
              priority := (maxPriority db.features).elim 1 (· + 1),
              in_progress := false }), db.logs⟩) := by
      simp [feature_skip, hfind, hp]
    rw [hstep]
    exact ⟨rfl, updateFeature_findFeature _ hfind (fun x => rfl), rfl⟩
  · intro fid db f hfind hp
    simp [feature_skip, hfind, hp]

/-- Witness for C6 at the S6 fixture. -/
theorem feature_skip_witness :
    findFeature db3.features 1 = some (fixF 1 1 "F1") ∧
    (fixF 1 1 "F1").passes = false ∧
    (feature_skip 1 db3).1 = .ok 1 "F1" 1 4 :=
  ⟨by decide, by decide, by
    have h := (feature_skip_spec).1 1 db3 (fixF 1 1 "F1") (by decide) (by decide)
    rw [h.1]
    decide⟩

/-! ## Claim C7 -/

/-- Claim C7: for a feature with `passes = false` and
`in_progress = false`, `feature_mark_in_progress` then
`feature_clear_in_progress` succeed, leave `passes` unchanged, leave the
feature selectable (present and pending), and `feature_get_next` on the
resulting store returns a pending feature minimal under
`(priority ASC, id ASC)`. -/
theorem mark_clear_roundtrip_spec (db : DB) (fid : Nat) (f : Feature)
    (hfind : findFeature db.features fid = some f)
    (hp : f.passes = false) (hip : f.in_progress = false) :
    (feature_mark_in_progress fid db).1 = .ok { f with in_progress := true } ∧
    ∃ f2, findFeature (feature_clear_in_progress fid
        (feature_mark_in_progress fid db).2).2.features fid = some f2 ∧
      f2.passes = f.passes ∧ f2.in_progress = false ∧
      f2 ∈ (feature_clear_in_progress fid
        (feature_mark_in_progress fid db).2).2.features ∧
      ∃ g, feature_get_next (feature_clear_in_progress fid
          (feature_mark_in_progress fid db).2).2.features = some g ∧
        g.passes = false ∧
        ∀ x ∈ (feature_clear_in_progress fid
            (feature_mark_in_progress fid db).2).2.features,
          x.passes = false → lexLe g x := by
  have h1 : feature_mark_in_progress fid db =
      (.ok { f with in_progress := true },
       ⟨updateFeature db.features fid (fun g => { g with in_progress := true }),
        db.logs⟩) := by
    simp [feature_mark_in_progress, hfind, hp, hip]
  have hfind1 : findFeature
      (updateFeature db.features fid (fun g => { g with in_progress := true }))
      fid = some { f with in_progress := true } :=
    updateFeature_findFeature _ hfind (fun x => rfl)
  have h2 : feature_clear_in_progress fid (feature_mark_in_progress fid db).2 =
      (.ok { f with in_progress := false },
       ⟨updateFeature
          (updateFeature db.features fid (fun g => { g with in_progress := true }))
          fid (fun g => { g with in_progress := false }),
        db.logs⟩) := by
    rw [h1]
    simp [feature_clear_in_progress, hfind1]
  have hfind2pre := updateFeature_findFeature
    (fun g => { g with in_progress := false }) hfind1 (fun x => rfl)
  have hfind2 : findFeature (feature_clear_in_progress fid
      (feature_mark_in_progress fid db).2).2.features fid =
      some { f with in_progress := false } := by
    rw [h2]
    exact hfind2pre
  refine ⟨by rw [h1], { f with in_progress := false }, hfind2, rfl, rfl,
    findFeature_mem hfind2, ?_⟩
  obtain ⟨g, hg⟩ := feature_get_next_isSome (findFeature_mem hfind2)
    (show ({ f with in_progress := false } : Feature).passes = false from hp)
  obtain ⟨_, hgp, hmin⟩ := feature_get_next_spec hg
  exact ⟨g, hg, hgp, hmin⟩

/-- Witness for C7 at a concrete pending feature. -/
theorem mark_clear_roundtrip_witness :
    findFeature db3.features 1 = some (fixF 1 1 "F1") ∧
    (fixF 1 1 "F1").passes = false ∧
    (fixF 1 1 "F1").in_progress = false ∧
    (feature_mark_in_progress 1 db3).1 =
      .ok { fixF 1 1 "F1" with in_progress := true } :=
  ⟨by decide, by decide, by decide,
   (mark_clear_roundtrip_spec db3 1 (fixF 1 1 "F1")
     (by decide) (by decide) (by decide)).1⟩

/-! ## Claim C9 -/

lemma takeLast_length_le (n : Nat) (l : List Char) :
    (takeLast n l).length ≤ n := by
  simp only [takeLast, List.length_drop]
  omega

set_option maxRecDepth 10000 in
/-- Claim C9 counterexample: the source truncates with the Python string
slice `[-1000:]`, which keeps the last 1000 *characters*, not bytes.  With
a verification stdout of 501 two-byte characters (1002 UTF-8 bytes) the
committed `StatusChangeLog` row stores all 1002 bytes, so the stored
output is not a concatenation of an at-most-1000-byte suffix of stdout
and an at-most-1000-byte suffix of stderr. -/
theorem verification_output_bytes_counterexample :
    (feature_mark_passing 0 "T" 1 ev50 (.ran 0 out501 [])
        ⟨dbVC, []⟩).2.db.logs.map (fun r => r.verification_output) =
      [some out501] ∧
    utf8Len out501 = 1002 ∧
    ¬ ∃ s1 s2, out501 = s1 ++ s2 ∧ s1 <:+ out501 ∧ utf8Len s1 ≤ 1000 ∧
      s2 <:+ ([] : List Char) ∧ utf8Len s2 ≤ 1000 := by
  refine ⟨by rfl, by rfl, ?_⟩
  rintro ⟨s1, s2, hv, hs1, h1, hs2, h2⟩
  obtain ⟨t, ht⟩ := hs2
  obtain ⟨-, rfl⟩ := List.append_eq_nil.mp ht
  rw [List.append_nil] at hv
  rw [← hv] at h1
  have h1002 : utf8Len out501 = 1002 := by rfl
  omega

/-- Claim C9 (amended): when `feature_mark_passing` commits through a
verification command that ran and exited 0, the `verification_output`
stored in the appended `StatusChangeLog` row is exactly the last 1000
*characters* of stdout concatenated with the last 1000 characters of
stderr — never more than 1000 characters per stream. -/
theorem verification_output_truncation_amended (now : ℚ) (ts : String)
    (fid : Nat) (ev : List Char) (out err : List Char) (st : SysState)
    (f : Feature) (cmd : String)
    (hrate : ¬ MAX_MARKS_PER_WINDOW ≤ (keptStamps now st.stamps).length)
    (hev : ¬ (pyStrip ev).length < 50)
    (hfind : findFeature st.db.features fid = some f)
    (hip : f.in_progress = true)
    (hcmd : f.verification_command = some cmd) (hcmdne : ¬ cmd = "") :
    (feature_mark_passing now ts fid ev (.ran 0 out err) st).2.db.logs =
      st.db.logs ++
        [⟨f.id, f.name, "in_progress", "passing", some (pyStrip ev),
          some (takeLast 1000 out ++ takeLast 1000 err), ts⟩] ∧
    (takeLast 1000 out).length ≤ 1000 ∧ (takeLast 1000 err).length ≤ 1000 := by
  rw [feature_mark_passing_passes_gate now ts fid ev (.ran 0 out err) st hrate]
  refine ⟨?_, takeLast_length_le 1000 out, takeLast_length_le 1000 err⟩
  simp [mpAfterRate, hev, hfind, hip, hcmd, hcmdne, mpCommit, logStatusChange]

/-- Witness for the amended C9 theorem on a concrete committing call. -/
theorem verification_output_truncation_witness :
    (¬ MAX_MARKS_PER_WINDOW ≤
      (keptStamps 0 (⟨dbVC, []⟩ : SysState).stamps).length) ∧
    (¬ (pyStrip ev50).length < 50) ∧
    findFeature dbVC.features 1 =
      some { fixF 1 1 "F1" with
        in_progress := true,
        verification_command := some "pytest" } ∧
    (feature_mark_passing 0 "T" 1 ev50 (.ran 0 "ok".data []) ⟨dbVC, []⟩).2.db.logs =
      [] ++ [⟨1, "F1", "in_progress", "passing", some (pyStrip ev50),
        some (takeLast 1000 "ok".data ++ takeLast 1000 []), "T"⟩] := by
  refine ⟨by decide, by decide, by decide, ?_⟩
  have h := (verification_output_truncation_amended 0 "T" 1 ev50 "ok".data []
    ⟨dbVC, []⟩
    { fixF 1 1 "F1" with
      in_progress := true,
      verification_command := some "pytest" }
    "pytest" (by decide) (by decide) (by decide) (by decide) (by decide)
    (by decide)).1
  exact h

/-! ## Lemmas: tokenisation of a non-blank segment is non-empty -/

lemma dropWhile_head_false (p : Char → Bool) :
    ∀ (l : List Char) (c : Char) (l' : List Char),
      l.dropWhile p = c :: l' → p c = false := by
  intro l
  induction l with
  | nil => intro c l' h; simp at h
  | cons a as ih =>
    intro c l' h
    by_cases ha : p a = true
    · rw [List.dropWhile_cons_of_pos ha] at h
      exact ih c l' h
    · have ha' : p a = false := by simpa using ha
      rw [List.dropWhile_cons_of_neg (by simp [ha'])] at h
      injection h with h1 h2
      rw [← h1]
      exact ha'

lemma pyStrip_exists_nonspace {s : List Char} (h : pyStrip s ≠ []) :
    ∃ c ∈ pyStrip s, isPySpace c = false := by
  have hne : (s.dropWhile isPySpace).reverse.dropWhile isPySpace ≠ [] := by
    intro he
    apply h
    unfold pyStrip
    rw [he]
    rfl
  obtain ⟨c, l', hcl⟩ := List.exists_cons_of_ne_nil hne
  refine ⟨c, ?_, dropWhile_head_false _ _ _ _ hcl⟩
  unfold pyStrip
  rw [List.mem_reverse, hcl]
  exact List.mem_cons_self _ _

lemma shlexGo_ne_nil :
    ∀ (cs : List Char) (st : LexState) (hasTok : Bool) (tok : List Char)
      (acc : List (List Char)) (ts : List (List Char)),
      shlexGo cs st hasTok tok acc = some ts →
      (hasTok = true ∨ acc ≠ []) → ts ≠ [] := by
  intro cs
  induction cs with
  | nil =>
    intro st hasTok tok acc ts h hd
    cases st <;> simp only [shlexGo] at h
    · obtain rfl : acc ++ (if hasTok = true then [tok.reverse] else []) = ts := by
        simpa using h
      rcases hd with hd | hd
      · rw [if_pos hd]
        simp
      · simp [hd]
    all_goals exact Option.noConfusion h
  | cons c cs ih =>
    intro st hasTok tok acc ts h hd
    cases st
    case out =>
      rw [shlexGo] at h
      by_cases h1 : isPySpace c = true
      · rw [if_pos h1] at h
        by_cases h2 : hasTok = true
        · rw [if_pos h2] at h
          exact ih _ _ _ _ _ h (Or.inr (by simp))
        · rw [if_neg h2] at h
          rcases hd with hd | hd
          · exact absurd hd h2
          · exact ih _ _ _ _ _ h (Or.inr hd)
      · rw [if_neg h1] at h
        split_ifs at h <;> exact ih _ _ _ _ _ h (Or.inl rfl)
    case esc =>
      rw [shlexGo] at h
      exact ih _ _ _ _ _ h (Or.inl rfl)
    case sq =>
      rw [shlexGo] at h
      split_ifs at h <;> exact ih _ _ _ _ _ h hd
    case dq =>
      rw [shlexGo] at h
      split_ifs at h <;> exact ih _ _ _ _ _ h hd
    case dqesc =>
      rw [shlexGo] at h
      split_ifs at h <;> exact ih _ _ _ _ _ h (Or.inl rfl)

lemma shlexGo_out_nonempty :
    ∀ (cs : List Char) (acc : List (List Char)) (ts : List (List Char)),
      shlexGo cs .out false [] acc = some ts →
      (∃ c ∈ cs, isPySpace c = false) → ts ≠ [] := by
  intro cs
  induction cs with
  | nil =>
    rintro acc ts h ⟨c, hc, -⟩
    simp at hc
  | cons c cs ih =>
    intro acc ts h hex
    rw [shlexGo] at h
    by_cases h1 : isPySpace c = true
    · rw [if_pos h1] at h
      simp only [Bool.false_eq_true, if_false] at h
      obtain ⟨d, hd, hdp⟩ := hex
      rcases List.mem_cons.mp hd with rfl | hd2
      · rw [h1] at hdp
        exact Bool.noConfusion hdp
      · exact ih acc ts h ⟨d, hd2, hdp⟩
    · rw [if_neg h1] at h
      split_ifs at h <;> exact shlexGo_ne_nil _ _ _ _ _ _ h (Or.inl rfl)

/-- A segment whose stripped form is non-blank never tokenises to an
empty token list. -/
lemma shlexSplit_tokens_ne_nil {s : List Char}
    (hne : ∃ c ∈ s, isPySpace c = false) {ts : List (List Char)}
    (h : shlexSplit s = some ts) : ts ≠ [] :=
  shlexGo_out_nonempty s [] ts h hne

/-! ## Lemmas: segment outcomes and extraction -/

lemma segRes_skip_of_cd {seg : List Char}
    (h : ("cd ".data.isPrefixOf (pyStrip seg)) = true) : segRes seg = .skip := by
  unfold segRes
  by_cases ht : pyStrip seg = []
  · simp [ht]
  · simp [ht, h]

lemma segRes_ne_skip {seg : List Char} (ht : pyStrip seg ≠ [])
    (hcd : ("cd ".data.isPrefixOf (pyStrip seg)) = false) :
    segRes seg ≠ .skip := by
  unfold segRes
  rw [if_neg ht, hcd]
  simp only [Bool.false_eq_true, if_false]
  cases hs : shlexSplit (pyStrip seg) with
  | none => simp
  | some ts =>
    cases ts with
    | nil =>
      exact absurd rfl
        (shlexSplit_tokens_ne_nil (pyStrip_exists_nonspace ht) hs)
    | cons tok toks => simp

lemma segRes_cmd_iff {seg : List Char} {c : List Char} :
    segRes seg = .cmd c ↔
      pyStrip seg ≠ [] ∧ ("cd ".data.isPrefixOf (pyStrip seg)) = false ∧
      ∃ tok toks, shlexSplit (pyStrip seg) = some (tok :: toks) ∧
        c = basename tok := by
  unfold segRes
  by_cases ht : pyStrip seg = []
  · simp [ht]
  · rw [if_neg ht]
    cases hcd : ("cd ".data.isPrefixOf (pyStrip seg)) with
    | true => simp [hcd, ht]
    | false =>
      simp only [Bool.false_eq_true, if_false, ht, hcd, ne_eq,
        not_false_eq_true, true_and]
      cases hs : shlexSplit (pyStrip seg) with
      | none => simp
      | some ts =>
        cases ts with
        | nil => simp
        | cons tok toks =>
          simp only [SegRes.cmd.injEq]
          constructor
          · rintro rfl
            exact ⟨tok, toks, rfl, rfl⟩
          · rintro ⟨tok', toks', hst, rfl⟩
            injection hst with hst
            injection hst with h1 h2
            rw [h1]

lemma extractGo_none_iff {segs : List (List Char)} :
    extractGo segs = none ↔ ∃ seg ∈ segs, segRes seg = .fail := by
  induction segs with
  | nil => simp [extractGo]
  | cons seg rest ih =>
    cases hs : segRes seg with
    | skip =>
      simp only [extractGo, hs, ih]
      constructor
      · rintro ⟨x, hx, hxf⟩
        exact ⟨x, List.mem_cons_of_mem _ hx, hxf⟩
      · rintro ⟨x, hx, hxf⟩
        rcases List.mem_cons.mp hx with rfl | hx2
        · rw [hs] at hxf
          exact SegRes.noConfusion hxf
        · exact ⟨x, hx2, hxf⟩
    | fail =>
      simp only [extractGo, hs, true_iff]
      exact ⟨seg, List.mem_cons_self _ _, hs⟩
    | cmd c =>
      simp only [extractGo, hs, Option.map_eq_none', ih]
      constructor
      · rintro ⟨x, hx, hxf⟩
        exact ⟨x, List.mem_cons_of_mem _ hx, hxf⟩
      · rintro ⟨x, hx, hxf⟩
        rcases List.mem_cons.mp hx with rfl | hx2
        · rw [hs] at hxf
          exact SegRes.noConfusion hxf
        · exact ⟨x, hx2, hxf⟩

lemma extractGo_some_of_no_fail {segs : List (List Char)}
    (h : ∀ seg ∈ segs, segRes seg ≠ .fail) :
    extractGo segs = some (segs.filterMap segCmd) := by
  induction segs with
  | nil => simp [extractGo]
  | cons seg rest ih =>
    have hrest := ih (fun x hx => h x (List.mem_cons_of_mem _ hx))
    cases hs : segRes seg with
    | skip => simp [extractGo, hs, List.filterMap_cons, segCmd, hrest]
    | fail => exact absurd hs (h seg (List.mem_cons_self _ _))
    | cmd c => simp [extractGo, hs, List.filterMap_cons, segCmd, hrest]

lemma extractGo_some_eq {segs : List (List Char)} {cs : List (List Char)}
    (h : extractGo segs = some cs) :
    cs = segs.filterMap segCmd ∧ ∀ seg ∈ segs, segRes seg ≠ .fail := by
  have hnf : ∀ seg ∈ segs, segRes seg ≠ .fail := by
    intro seg hseg hfail
    have hnone : extractGo segs = none := extractGo_none_iff.mpr ⟨seg, hseg, hfail⟩
    rw [hnone] at h
    exact Option.noConfusion h
  have heq := extractGo_some_of_no_fail hnf
  rw [heq] at h
  injection h with h
  exact ⟨h.symm, hnf⟩

lemma firstDisallowed_none_iff {l : List (List Char)} :
    firstDisallowed l = none ↔ ∀ c ∈ l, c ∈ ALLOWED_TASK_COMMANDS := by
  induction l with
  | nil => simp [firstDisallowed]
  | cons c cs ih =>
    rw [firstDisallowed]
    by_cases hc : c ∈ ALLOWED_TASK_COMMANDS
    · simp [hc, ih]
    · simp [hc]

/-! ## Claim C10 -/

/-- Claim C10: a non-blank command string all of whose separator-delimited
segments (after stripping) begin with `cd ` is rejected by
`validate_command` with the error "Could not parse command"
(`VResult.couldNotParse`), even though each `cd` segment individually is
treated as safe and skipped during extraction. -/
theorem all_cd_segments_rejected (s : List Char) (hnb : pyStrip s ≠ [])
    (hcd : ∀ seg ∈ splitSegments s,
      ("cd ".data.isPrefixOf (pyStrip seg)) = true) :
    validate_command s = .couldNotParse := by
  have hall : ∀ seg ∈ splitSegments s, segRes seg = .skip :=
    fun seg hs => segRes_skip_of_cd (hcd seg hs)
  have hsome : extractGo (splitSegments s) =
      some ((splitSegments s).filterMap segCmd) :=
    extractGo_some_of_no_fail (fun seg hs => by rw [hall seg hs]; simp)
  have hnil : (splitSegments s).filterMap segCmd = [] := by
    rw [List.filterMap_eq_nil_iff]
    intro seg hs
    rw [segCmd, hall seg hs]
  unfold validate_command
  rw [if_neg hnb]
  simp only [extract_commands_from_string, hsome, hnil, Option.getD_some]
  rw [if_pos trivial]

/-- Witness for C10 at the literal string `cd ui`. -/
theorem all_cd_segments_rejected_witness :
    pyStrip "cd ui".data ≠ [] ∧
    (∀ seg ∈ splitSegments "cd ui".data,
      ("cd ".data.isPrefixOf (pyStrip seg)) = true) ∧
    validate_command "cd ui".data = .couldNotParse :=
  ⟨by decide, by decide,
   all_cd_segments_rejected "cd ui".data (by decide) (by decide)⟩

/-! ## Claim C8 -/

/-- Claim C8 counterexample: the string `cd ui` is non-blank and every
segment not starting with `cd ` (there are none) vacuously satisfies the
allow-list condition, so the claimed iff would accept it; but
`validate_command` rejects it with `couldNotParse`. -/
theorem validate_command_iff_counterexample :
    (pyStrip "cd ui".data ≠ [] ∧
     ∀ seg ∈ splitSegments "cd ui".data, pyStrip seg ≠ [] →
       ("cd ".data.isPrefixOf (pyStrip seg)) = false →
       ∃ tok toks, shlexSplit (pyStrip seg) = some (tok :: toks) ∧
         basename tok ∈ ALLOWED_TASK_COMMANDS) ∧
    validate_command "cd ui".data ≠ .valid := by
  refine ⟨⟨by decide, ?_⟩, by decide⟩
  intro seg hseg hne hcd
  have hs : seg = "cd ui".data := by
    have : splitSegments "cd ui".data = ["cd ui".data] := by decide
    rw [this] at hseg
    simpa using hseg
  subst hs
  exact absurd hcd (by decide)

/-- Claim C8 (amended): `validate_command` accepts a command string iff it
is non-blank, at least one segment (after stripping) is non-blank and
does not start with `cd `, and every non-blank segment not starting with
`cd ` tokenises under shell-word semantics into a non-empty token list
whose first token, with any directory prefix stripped, is in the
allow-list.  (The original claim lacked the second condition: a string
whose segments are all `cd ...` is rejected.) -/
theorem validate_command_iff_amended (s : List Char) :
    validate_command s = .valid ↔
      (pyStrip s ≠ [] ∧
       (∃ seg ∈ splitSegments s, pyStrip seg ≠ [] ∧
          ("cd ".data.isPrefixOf (pyStrip seg)) = false) ∧
       ∀ seg ∈ splitSegments s, pyStrip seg ≠ [] →
         ("cd ".data.isPrefixOf (pyStrip seg)) = false →
         ∃ tok toks, shlexSplit (pyStrip seg) = some (tok :: toks) ∧
           basename tok ∈ ALLOWED_TASK_COMMANDS) := by
  constructor
  · intro hv
    unfold validate_command at hv
    by_cases hnb : pyStrip s = []
    · rw [if_pos hnb] at hv
      exact absurd hv (by simp)
    · rw [if_neg hnb] at hv
      by_cases hcm : extract_commands_from_string s = []
      · rw [if_pos hcm] at hv
        exact absurd hv (by simp)
      · rw [if_neg hcm] at hv
        cases hfd : firstDisallowed (extract_commands_from_string s) with
        | some c =>
          rw [hfd] at hv
          exact absurd hv (by simp)
        | none =>
          have hallow : ∀ c ∈ extract_commands_from_string s,
              c ∈ ALLOWED_TASK_COMMANDS := firstDisallowed_none_iff.mp hfd
          cases hex : extractGo (splitSegments s) with
          | none =>
            exfalso
            apply hcm
            rw [extract_commands_from_string, hex]
            rfl
          | some cs =>
            obtain ⟨rfl, hnf⟩ := extractGo_some_eq hex
            have hcs : extract_commands_from_string s =
                (splitSegments s).filterMap segCmd := by
              rw [extract_commands_from_string, hex]
              rfl
            refine ⟨hnb, ?_, ?_⟩
            · rcases hne :
                (splitSegments s).filterMap segCmd with - | ⟨c0, rest⟩
              · rw [hcs, hne] at hcm
                exact absurd rfl hcm
              · have hc0 : c0 ∈ (splitSegments s).filterMap segCmd := by
                  rw [hne]
                  exact List.mem_cons_self _ _
                obtain ⟨seg0, hseg0, hsc0⟩ := List.mem_filterMap.mp hc0
                have hres0 : segRes seg0 = .cmd c0 := by
                  rw [segCmd] at hsc0
                  cases hr : segRes seg0 <;> rw [hr] at hsc0 <;>
                    simp at hsc0
                  rw [hsc0]
                obtain ⟨h1, h2, -⟩ := segRes_cmd_iff.mp hres0
                exact ⟨seg0, hseg0, h1, h2⟩
            · intro seg hseg hne2 hcd2
              cases hr : segRes seg with
              | skip => exact absurd hr (segRes_ne_skip hne2 hcd2)
              | fail => exact absurd hr (hnf seg hseg)
              | cmd c =>
                obtain ⟨-, -, tok, toks, hst, rfl⟩ := segRes_cmd_iff.mp hr
                refine ⟨tok, toks, hst, ?_⟩
                apply hallow
                rw [hcs]
                apply List.mem_filterMap.mpr
                exact ⟨seg, hseg, by rw [segCmd, hr]⟩
  · rintro ⟨hnb, ⟨seg0, hseg0, h0ne, h0cd⟩, hall⟩
    have hres : ∀ seg ∈ splitSegments s, segRes seg ≠ .fail := by
      intro seg hseg hfail
      by_cases hne2 : pyStrip seg = []
      · have : segRes seg = .skip := by rw [segRes, if_pos hne2]
        rw [hfail] at this
        exact SegRes.noConfusion this
      · cases hcd2 : ("cd ".data.isPrefixOf (pyStrip seg)) with
        | true =>
          have := segRes_skip_of_cd hcd2
          rw [hfail] at this
          exact SegRes.noConfusion this
        | false =>
          obtain ⟨tok, toks, hst, hmem⟩ := hall seg hseg hne2 hcd2
          have : segRes seg = .cmd (basename tok) :=
            segRes_cmd_iff.mpr ⟨hne2, hcd2, tok, toks, hst, rfl⟩
          rw [hfail] at this
          exact SegRes.noConfusion this
    have hex := extractGo_some_of_no_fail hres
    have hcs : extract_commands_from_string s =
        (splitSegments s).filterMap segCmd := by
      rw [extract_commands_from_string, hex]
      rfl
    obtain ⟨tok0, toks0, hst0, hmem0⟩ := hall seg0 hseg0 h0ne h0cd
    have hres0 : segRes seg0 = .cmd (basename tok0) :=
      segRes_cmd_iff.mpr ⟨h0ne, h0cd, tok0, toks0, hst0, rfl⟩
    have hc0 : basename tok0 ∈ (splitSegments s).filterMap segCmd :=
      List.mem_filterMap.mpr ⟨seg0, hseg0, by rw [segCmd, hres0]⟩
    have hcm : extract_commands_from_string s ≠ [] := by
      rw [hcs]
      intro hnil
      rw [hnil] at hc0
      exact absurd hc0 (List.not_mem_nil _)
    have hfd : firstDisallowed (extract_commands_from_string s) = none := by
      rw [firstDisallowed_none_iff]
      intro c hc
      rw [hcs] at hc
      obtain ⟨seg, hseg, hsc⟩ := List.mem_filterMap.mp hc
      have hres2 : segRes seg = .cmd c := by
        rw [segCmd] at hsc
        cases hr : segRes seg <;> rw [hr] at hsc <;> simp at hsc
        rw [hsc]
      obtain ⟨hne2, hcd2, tok, toks, hst, rfl⟩ := segRes_cmd_iff.mp hres2
      obtain ⟨tok', toks', hst', hmem'⟩ := hall seg hseg hne2 hcd2
      rw [hst] at hst'
      injection hst' with hst'
      injection hst' with h1 h2
      rw [h1]
      exact hmem'
    unfold validate_command
    rw [if_neg hnb, if_neg hcm, hfd]

/-- Witness for the amended C8 theorem at the literal string `ls`. -/
theorem validate_command_iff_witness :
    validate_command "ls".data = .valid :=
  (validate_command_iff_amended "ls".data).mpr
    ⟨by decide,
     ⟨"ls".data, by decide, by decide, by decide⟩,
     by
      intro seg hseg h1 h2
      have hs : seg = "ls".data := by
        have heq : splitSegments "ls".data = ["ls".data] := by decide
        rw [heq] at hseg
        simpa using hseg
      subst hs
      exact ⟨"ls".data, [], by decide, by decide⟩⟩

/-! ## Claim C3 -/

/-- Claim C3 counterexample: a log line containing
`ANTHROPIC_API_KEY=abc123` is broadcast with the *whole* regex match —
key name included — replaced, so the broadcast line is `[REDACTED]` and
never contains the literal `ANTHROPIC_API_KEY=[REDACTED]` claimed by the
spec. -/
theorem sanitize_anthropic_key_counterexample :
    containsSub "ANTHROPIC_API_KEY=abc123".data "ANTHROPIC_API_KEY=abc123".data
      = true ∧
    streamedLine "ANTHROPIC_API_KEY=abc123".data = "[REDACTED]".data ∧
    containsSub "ANTHROPIC_API_KEY=[REDACTED]".data
      (streamedLine "ANTHROPIC_API_KEY=abc123".data) = false := by decide

/-- Claim C3 (amended): the agent output line `ANTHROPIC_API_KEY=abc123`
is broadcast as the literal `[REDACTED]`: `re.sub` replaces the entire
match of `ANTHROPIC_API_KEY=[^\s]+`, including the variable name, with
the replacement token. -/
theorem sanitize_anthropic_key_amended :
    streamedLine "ANTHROPIC_API_KEY=abc123".data = "[REDACTED]".data ∧
    sanitize_output "ANTHROPIC_API_KEY=abc123".data = "[REDACTED]".data := by
  decide

/-! ## Lemmas: the rate-limiter window -/

lemma minQ_mem : ∀ {l : List ℚ} {m : ℚ}, minQ l = some m → m ∈ l := by
  intro l
  induction l with
  | nil => intro m h; simp [minQ] at h
  | cons x xs ih =>
    intro m h
    cases hm : minQ xs with
    | none =>
      simp only [minQ, hm, Option.some.injEq] at h
      rw [← h]
      exact List.mem_cons_self _ _
    | some m' =>
      simp only [minQ, hm, Option.some.injEq] at h
      rcases min_choice x m' with hc | hc
      · rw [← h, hc]
        exact List.mem_cons_self _ _
      · rw [← h, hc]
        exact List.mem_cons_of_mem _ (ih hm)

lemma minQ_le : ∀ {l : List ℚ} {m : ℚ}, minQ l = some m → ∀ x ∈ l, m ≤ x := by
  intro l
  induction l with
  | nil => intro m h; simp [minQ] at h
  | cons x xs ih =>
    intro m h y hy
    cases hm : minQ xs with
    | none =>
      simp only [minQ, hm, Option.some.injEq] at h
      have hxs : xs = [] := by
        cases hxs : xs with
        | nil => rfl
        | cons a as => rw [hxs, minQ] at hm; exact Option.noConfusion hm
      rw [hxs] at hy
      obtain rfl : y = x := by simpa using hy
      exact le_of_eq h.symm
    | some m' =>
      simp only [minQ, hm, Option.some.injEq] at h
      rcases List.mem_cons.mp hy with rfl | hy2
      · exact h ▸ min_le_left _ _
      · exact le_trans (h ▸ min_le_right x m') (ih hm y hy2)

lemma minQ_isSome {l : List ℚ} (h : l ≠ []) : ∃ m, minQ l = some m := by
  cases l with
  | nil => exact absurd rfl h
  | cons x xs => exact ⟨_, rfl⟩

/-- The rate-limit stamps after one call: the pruned window, plus the call
instant exactly when the call committed; a committed call saw at most 2
surviving stamps. -/
lemma runCall_stamps (c : MPCall) (st : SysState) :
    (runCall c st).2.stamps =
      keptStamps c.now st.stamps ++
        (if isOk (runCall c st).1 then [c.now] else []) ∧
    (isOk (runCall c st).1 = true → (keptStamps c.now st.stamps).length ≤ 2) := by
  unfold runCall
  by_cases hrate : MAX_MARKS_PER_WINDOW ≤ (keptStamps c.now st.stamps).length
  · simp only [feature_mark_passing, if_pos hrate]
    exact ⟨by simp [isOk], fun h => by simp [isOk] at h⟩
  · rw [feature_mark_passing_passes_gate _ _ _ _ _ _ hrate]
    refine ⟨rfl, fun _ => ?_⟩
    unfold MAX_MARKS_PER_WINDOW at hrate
    omega

/-- Every recorded success time is the wall-clock instant of one of the
calls. -/
lemma succTimes_subset :
    ∀ (calls : List MPCall) (st : SysState),
      ∀ x ∈ succTimes calls st, ∃ c ∈ calls, x = c.now := by
  intro calls
  induction calls with
  | nil => simp [succTimes]
  | cons c cs ih =>
    intro st x hx
    simp only [succTimes] at hx
    rcases List.mem_append.mp hx with hx | hx
    · by_cases hok : isOk (runCall c st).1 = true
      · rw [if_pos hok] at hx
        obtain rfl : x = c.now := by simpa using hx
        exact ⟨c, List.mem_cons_self _ _, rfl⟩
      · rw [if_neg hok] at hx
        exact absurd hx (List.not_mem_nil x)
    · obtain ⟨c', hc', rfl⟩ := ih _ x hx
      exact ⟨c', List.mem_cons_of_mem _ hc', rfl⟩

lemma windowCount_append (t : ℚ) (a b : List ℚ) :
    windowCount t (a ++ b) = windowCount t a + windowCount t b := by
  unfold windowCount
  exact List.countP_append _ _ _

lemma windowCount_singleton (t x : ℚ) :
    windowCount t [x] =
      if t ≤ x ∧ x < t + WINDOW_SECONDS then 1 else 0 := by
  unfold windowCount
  by_cases h : t ≤ x ∧ x < t + WINDOW_SECONDS <;>
    simp [List.countP_cons, h]

lemma geCount_append (t : ℚ) (a b : List ℚ) :
    geCount t (a ++ b) = geCount t a + geCount t b := by
  unfold geCount
  exact List.countP_append _ _ _

lemma geCount_singleton (t x : ℚ) :
    geCount t [x] = if t ≤ x then 1 else 0 := by
  unfold geCount
  by_cases h : t ≤ x <;> simp [List.countP_cons, h]

lemma geCount_le_length (t : ℚ) (l : List ℚ) : geCount t l ≤ l.length :=
  List.countP_le_length _

/-- Pruning the window at an instant `now` before the window's right edge
does not drop any stamp at or after the window's left edge `t`. -/
lemma geCount_kept (t now : ℚ) (l : List ℚ) (h : now < t + WINDOW_SECONDS) :
    geCount t (keptStamps now l) = geCount t l := by
  unfold geCount keptStamps
  rw [List.countP_filter]
  apply List.countP_congr
  intro a _
  by_cases ha : t ≤ a
  · have hlt : now - a < WINDOW_SECONDS := by linarith
    simp [ha, hlt]
  · simp [ha]

/-- Core sliding-window invariant: over any trace of
`feature_mark_passing` calls at non-decreasing wall-clock times, the
number of successes inside the window `[t, t + 300)` plus the (capped)
number of already-recorded stamps at or after `t` never exceeds 3. -/
lemma window_key :
    ∀ (calls : List MPCall) (st : SysState) (t : ℚ),
      List.Sorted (· ≤ ·) (calls.map MPCall.now) →
      (∀ s ∈ st.stamps, ∀ c ∈ calls, s ≤ c.now) →
      windowCount t (succTimes calls st) + min 3 (geCount t st.stamps) ≤ 3 := by
  intro calls
  induction calls with
  | nil =>
    intro st t _ _
    have h0 : windowCount t (succTimes [] st) = 0 := rfl
    rw [h0]
    omega
  | cons c cs ih =>
    intro st t hsort hub
    have hsortcons : (∀ c' ∈ cs, c.now ≤ c'.now) ∧
        List.Sorted (· ≤ ·) (cs.map MPCall.now) := by
      simpa using hsort
    have hsort' : List.Sorted (· ≤ ·) (cs.map MPCall.now) := hsortcons.2
    have hcle : ∀ c' ∈ cs, c.now ≤ c'.now := hsortcons.1
    obtain ⟨hstamps, hoklen⟩ := runCall_stamps c st
    have hub' : ∀ s ∈ (runCall c st).2.stamps, ∀ c' ∈ cs, s ≤ c'.now := by
      intro s hs c' hc'
      rw [hstamps] at hs
      rcases List.mem_append.mp hs with hs | hs
      · exact hub s (List.mem_of_mem_filter hs) c' (List.mem_cons_of_mem _ hc')
      · by_cases hok : isOk (runCall c st).1 = true
        · rw [if_pos hok] at hs
          obtain rfl : s = c.now := by simpa using hs
          exact hcle c' hc'
        · rw [if_neg hok] at hs
          exact absurd hs (List.not_mem_nil s)
    have hsucc : succTimes (c :: cs) st =
        (if isOk (runCall c st).1 then [c.now] else []) ++
          succTimes cs (runCall c st).2 := rfl
    rw [hsucc, windowCount_append]
    have hihres := ih (runCall c st).2 t hsort' hub'
    by_cases hwin : c.now < t + WINDOW_SECONDS
    · have hkeep : geCount t (keptStamps c.now st.stamps) = geCount t st.stamps :=
        geCount_kept t c.now st.stamps hwin
      by_cases hok : isOk (runCall c st).1 = true
      · have hlen2 : (keptStamps c.now st.stamps).length ≤ 2 := hoklen hok
        have hgk : geCount t (keptStamps c.now st.stamps) ≤ 2 :=
          le_trans (geCount_le_length _ _) hlen2
        rw [hstamps, if_pos hok, geCount_append, geCount_singleton] at hihres
        rw [if_pos hok, windowCount_singleton]
        by_cases htc : t ≤ c.now
        · rw [if_pos ⟨htc, hwin⟩]
          rw [if_pos htc] at hihres
          omega
        · rw [if_neg (fun hh => htc hh.1)]
          rw [if_neg htc] at hihres
          omega
      · rw [if_neg hok]
        rw [hstamps, if_neg hok, List.append_nil, hkeep] at hihres
        have h0 : windowCount t ([] : List ℚ) = 0 := rfl
        rw [h0]
        omega
    · have htail0 : windowCount t (succTimes cs (runCall c st).2) = 0 := by
        unfold windowCount
        rw [List.countP_eq_zero]
        intro x hx
        obtain ⟨c', hc', rfl⟩ := succTimes_subset cs _ x hx
        have h1 : c.now ≤ c'.now := hcle c' hc'
        have h2 : t + WINDOW_SECONDS ≤ c.now := le_of_not_lt hwin
        simp only [decide_eq_true_eq, not_and, not_lt]
        intro _
        linarith
      have hhead0 : windowCount t
          (if isOk (runCall c st).1 then [c.now] else []) = 0 := by
        by_cases hok : isOk (runCall c st).1 = true
        · rw [if_pos hok, windowCount_singleton,
            if_neg (fun hh => hwin hh.2)]
        · rw [if_neg hok]
          rfl
      rw [htail0, hhead0]
      omega

lemma feature_mark_passing_rate_branch (now : ℚ) (ts : String) (fid : Nat)
    (ev : List Char) (env : VerifOutcome) (st : SysState)
    (hrate : MAX_MARKS_PER_WINDOW ≤ (keptStamps now st.stamps).length) :
    feature_mark_passing now ts fid ev env st =
      (.rateLimited (Int.floor (WINDOW_SECONDS -
        (now - (minQ (keptStamps now st.stamps)).getD 0))),
       ⟨st.db, keptStamps now st.stamps⟩) := by
  simp only [feature_mark_passing, if_pos hrate]

lemma mpAfterRate_ne_rateLimited (ts : String) (fid : Nat) (ev : List Char)
    (env : VerifOutcome) (db : DB) (w : Int) :
    (mpAfterRate ts fid ev env db).1 ≠ .rateLimited w := by
  unfold mpAfterRate
  split
  · simp
  · split
    · simp
    · split
      · simp
      · split
        · simp [mpCommit]
        · split
          · simp [mpCommit]
          · split
            · simp
            · split
              · simp [mpCommit]
              · simp

/-! ## Claim C4 -/

/-- Claim C4: starting from a fresh process (empty rate-limiter window),
over any trace of `feature_mark_passing` calls at non-decreasing
wall-clock times, at most 3 calls succeed inside any sliding window
`[t, t + 300)`; a rate-limit timestamp is recorded only on a successful
commit (a rejected call adds no stamp); and a rate-limited call's error
carries the wait `int(300 - (now - oldest))` until the oldest surviving
stamp leaves the window. -/
theorem mark_passing_rate_limit_props :
    (∀ (calls : List MPCall) (db : DB) (t : ℚ),
      List.Sorted (· ≤ ·) (calls.map MPCall.now) →
      windowCount t (succTimes calls ⟨db, []⟩) ≤ 3) ∧
    (∀ (c : MPCall) (st : SysState), isOk (runCall c st).1 = false →
      (runCall c st).2.stamps.Sublist st.stamps) ∧
    (∀ (c : MPCall) (st : SysState) (w : Int),
      (runCall c st).1 = .rateLimited w →
      ∃ m, minQ (keptStamps c.now st.stamps) = some m ∧
        m ∈ keptStamps c.now st.stamps ∧
        (∀ u ∈ keptStamps c.now st.stamps, m ≤ u) ∧
        w = Int.floor (WINDOW_SECONDS - (c.now - m))) := by
  refine ⟨?_, ?_, ?_⟩
  · intro calls db t hsort
    have h := window_key calls ⟨db, []⟩ t hsort (by intro s hs; simp at hs)
    have h0 : geCount t (⟨db, []⟩ : SysState).stamps = 0 := rfl
    rw [h0] at h
    omega
  · intro c st herr
    obtain ⟨hstamps, -⟩ := runCall_stamps c st
    rw [hstamps, herr]
    simp only [Bool.false_eq_true, if_false, List.append_nil]
    exact List.filter_sublist _
  · intro c st w h
    by_cases hrate : MAX_MARKS_PER_WINDOW ≤ (keptStamps c.now st.stamps).length
    · rw [runCall, feature_mark_passing_rate_branch _ _ _ _ _ _ hrate] at h
      have hne : keptStamps c.now st.stamps ≠ [] := by
        intro hnil
        rw [hnil] at hrate
        simp [MAX_MARKS_PER_WINDOW] at hrate
      obtain ⟨m, hm⟩ := minQ_isSome hne
      refine ⟨m, hm, minQ_mem hm, minQ_le hm, ?_⟩
      have hw : w = Int.floor (WINDOW_SECONDS -
          (c.now - (minQ (keptStamps c.now st.stamps)).getD 0)) := by
        have := congrArg (fun r => r) h
        injection h with h1
        exact h1.symm
      rw [hw, hm, Option.getD_some]
    · rw [runCall, feature_mark_passing_passes_gate _ _ _ _ _ _ hrate] at h
      exact absurd h (mpAfterRate_ne_rateLimited _ _ _ _ _ _)

set_option maxHeartbeats 1000000 in
/-- Witness for C4: a one-call trace stays within the window bound; a
rejected call records no stamp; a call against a full window of three
stamps at time 0 is rate-limited with wait `int(300 - (0 - 0)) = 300`. -/
theorem mark_passing_rate_limit_witness :
    (List.Sorted (· ≤ ·)
      (([⟨0, "T", 1, ev50, .ran 0 [] []⟩] : List MPCall).map MPCall.now) ∧
     windowCount 0 (succTimes [⟨0, "T", 1, ev50, .ran 0 [] []⟩] ⟨dbIP, []⟩) ≤ 3) ∧
    (isOk (runCall ⟨0, "T", 1, [], .ran 0 [] []⟩ ⟨dbIP, []⟩).1 = false ∧
     (runCall ⟨0, "T", 1, [], .ran 0 [] []⟩ ⟨dbIP, []⟩).2.stamps.Sublist []) ∧
    ((runCall ⟨0, "T", 1, ev50, .ran 0 [] []⟩ ⟨dbIP, [0, 0, 0]⟩).1 =
       .rateLimited 300 ∧
     ∃ m, minQ (keptStamps 0 (⟨dbIP, [0, 0, 0]⟩ : SysState).stamps) = some m ∧
       m ∈ keptStamps 0 (⟨dbIP, [0, 0, 0]⟩ : SysState).stamps ∧
       (∀ u ∈ keptStamps 0 (⟨dbIP, [0, 0, 0]⟩ : SysState).stamps, m ≤ u) ∧
       (300 : Int) = Int.floor (WINDOW_SECONDS - ((0 : ℚ) - m))) := by
  have hsort : List.Sorted (· ≤ ·)
      (([⟨0, "T", 1, ev50, .ran 0 [] []⟩] : List MPCall).map MPCall.now) := by
    simp
  have hrl : (runCall ⟨0, "T", 1, ev50, .ran 0 [] []⟩ ⟨dbIP, [0, 0, 0]⟩).1 =
      .rateLimited 300 := by
    have h1 : ((0 : ℚ) - 0 < 300) := by norm_num
    have h2 : (⌊(300 : ℚ) - (0 - 0)⌋ : ℤ) = 300 := by norm_num
    simp [runCall, feature_mark_passing, keptStamps, WINDOW_SECONDS,
      MAX_MARKS_PER_WINDOW, minQ, List.filter, h1, h2]
  refine ⟨⟨hsort, mark_passing_rate_limit_props.1 _ dbIP 0 hsort⟩,
    ⟨by decide, mark_passing_rate_limit_props.2.1 _ ⟨dbIP, []⟩ (by decide)⟩,
    hrl, mark_passing_rate_limit_props.2.2 _ ⟨dbIP, [0, 0, 0]⟩ 300 hrl⟩
